import Mathlib

/-!
# Verification of the dns-mesh-sidecar domain matcher and query pipeline

Shallow embedding of the Go sources of `dashdns/dns-mesh-sidecar`:

* `pkg/matcher` (`src/unnamed/part_000`, `src/pkg/matcher/types.go`):
  `normalizeDomain`, `reverseLabels`, `BuildMatcher`, `Matcher.Match`.
* `internal/client/fetcher.go`: `Fetcher.fetchPolicies`.
* `internal/dns` handler (`src/unnamed/part_004`, second file in the part):
  the block/forward/drop decision of `Handler.HandleUDP` / `Handler.HandleTCP`,
  and the TCP length-prefix computation.

Go `string` values are modelled as Lean `String`.  The Go standard-library
string helpers used by the source (`strings.Split`, `strings.Join`,
`strings.TrimSpace`, `strings.TrimSuffix`, `strings.ToLower`, `strings.Count`,
`len`) are re-implemented below on `List Char` with Go's exact semantics, so
that every definition evaluates by kernel reduction.  Go's `ToLower` and
`TrimSpace` are full-Unicode; the models below implement the ASCII fragment
(plus Go's Latin-1 space set), which coincides with Go on the ASCII strings
that the matcher actually sees (the post-IDNA alphabet is ASCII).

The IDNA lookup conversion `idna.Lookup.ToASCII` and the public-suffix
computation are external libraries, not part of this repository; the IDNA map
is kept as an explicit function parameter `toASCII` of the whole development
(instantiated with `id` for concrete witnesses, which matches the library on
already-ASCII inputs).  `normalizeDomain` in the source also returns the
eTLD+1, but every caller discards it, so the model returns only the punycode
form.
-/

/-- Go `strings.Split (·) "."` on a character list: split on `'.'`,
keeping empty parts, `Split "" "." = [""]`. -/
def splitDotsL : List Char → List (List Char)
  | [] => [[]]
  | c :: rest =>
    if c = '.' then [] :: splitDotsL rest
    else
      match splitDotsL rest with
      | [] => [[c]]
      | p :: ps => (c :: p) :: ps

/-- Go `strings.Join (·) "."` on character lists. -/
def joinDotsL : List (List Char) → List Char
  | [] => []
  | [p] => p
  | p :: q :: ps => p ++ '.' :: joinDotsL (q :: ps)

/-- Go `strings.Split d "."` lifted to `String`. -/
def splitOnDot (s : String) : List String :=
  (splitDotsL s.toList).map fun l => String.mk l

/-- Go `strings.Join parts "."` lifted to `String`. -/
def joinDot (parts : List String) : String :=
  String.mk (joinDotsL (parts.map String.toList))

/-- `reverseLabels` from `pkg/matcher`: split on `.`, reverse the labels in
place, rejoin with `.`. -/
def reverseLabels (d : String) : String :=
  joinDot (splitOnDot d).reverse

/-- Go byte length `len(s)`: the UTF-8 byte count of the string. -/
def byteLen (s : String) : Nat :=
  s.toList.foldl (fun n c => n + c.utf8Size) 0

/-- Go `strings.Count q "."` for the single-character separator: the number
of `'.'` characters. -/
def countDot (s : String) : Nat :=
  s.toList.count '.'

/-- The space set of Go `unicode.IsSpace` restricted to Latin-1
(`'\t'`, `'\n'`, `'\v'`, `'\f'`, `'\r'`, `' '`, U+0085, U+00A0);
the Unicode `Zs` extras do not occur in domain rule lists. -/
def isSpaceGo (c : Char) : Bool :=
  c == ' ' || c == '\t' || c == '\n' || c == Char.ofNat 11 || c == Char.ofNat 12 ||
    c == '\r' || c == Char.ofNat 0x85 || c == Char.ofNat 0xA0

/-- Go `strings.TrimSpace`. -/
def trimSpaceStr (s : String) : String :=
  String.mk (((s.toList.dropWhile isSpaceGo).reverse.dropWhile isSpaceGo).reverse)

/-- ASCII case mapping of a single character (the fragment of Go
`unicode.ToLower` relevant to canonical domains). -/
def lowerChar (c : Char) : Char :=
  if 'A' ≤ c ∧ c ≤ 'Z' then Char.ofNat (c.toNat + 32) else c

/-- Go `strings.ToLower` (ASCII fragment). -/
def toLowerStr (s : String) : String :=
  String.mk (s.toList.map lowerChar)

/-- Go `strings.TrimSuffix s "."`: drop one trailing `'.'` if present. -/
def trimSuffixDot (s : String) : String :=
  if s.toList.getLast? = some '.' then String.mk s.toList.dropLast else s

/-- Go `strings.HasPrefix r "*."`. -/
def hasWildcardMark (s : String) : Bool :=
  match s.toList with
  | '*' :: '.' :: _ => true
  | _ => false

/-- Go `strings.TrimPrefix r "*."` (only applied under `hasWildcardMark`). -/
def dropWildcardMark (s : String) : String :=
  match s.toList with
  | '*' :: '.' :: rest => String.mk rest
  | _ => s

section Matcher

-- The IDNA lookup conversion `idna.Lookup.ToASCII` (external library, kept
-- abstract as a parameter of the whole development).
variable (toASCII : String → String)

/-- `normalizeDomain` from `pkg/matcher`:
`strings.TrimSpace (strings.TrimSuffix (strings.ToLower d) ".")`, then the
IDNA lookup conversion.  The eTLD+1 second component is discarded by every
caller and is not modelled. -/
def normalizeDomain (d : String) : String :=
  toASCII (trimSpaceStr (trimSuffixDot (toLowerStr d)))

/-- `ruleType` from `pkg/matcher/types.go` (`RExact = iota`, `RWildcard`). -/
inductive RuleType where
  | RExact
  | RWildcard
deriving DecidableEq, Repr

/-- The `Matcher` struct from `pkg/matcher/types.go`.
`exact` models the `map[string]struct{}` of exact canonical rules (insertion
order is irrelevant to membership); `wild` models the reverse-label radix tree
as the insertion list of `(key, value)` pairs, where the key is
`reverseLabels canon` and the value is the stored rule's `val` field (the
canonical base); lookup takes the most recent binding of a key, as radix
`Insert` overwrites.  `bf` models the bloom filter as the list of strings
passed to `AddString` (its probe is never consulted by `Match`, see below);
`matchAll` is the catch-all flag. -/
structure Matcher where
  exact : List String
  wild : List (String × String)
  bf : Option (List String)
  matchAll : Bool
deriving DecidableEq, Repr

/-- The per-rule body of the `for _, raw := range rules` loop of
`BuildMatcher`. -/
def buildStep (m : Matcher) (raw : String) : Matcher :=
  let r := trimSpaceStr raw
  if r = "" then m
  else if r = "*" then { m with matchAll := true }
  else
    let isWildcard := hasWildcardMark r
    let base := if isWildcard then dropWildcardMark r else r
    let canon := normalizeDomain toASCII base
    if canon = "" then m
    else if isWildcard then
      { m with wild := (reverseLabels canon, canon) :: m.wild,
               bf := m.bf.map (canon :: ·) }
    else
      { m with exact := canon :: m.exact, bf := m.bf.map (canon :: ·) }

/-- `BuildMatcher` from `pkg/matcher`: start from the empty matcher, with a
bloom filter instantiated exactly when `len(rules) > 10000`
(the `NewWithEstimates` sizing parameters size the filter but do not affect
which strings are added), then process each rule. -/
def BuildMatcher (rules : List String) : Matcher :=
  rules.foldl (buildStep toASCII)
    { exact := [], wild := [],
      bf := if 10000 < rules.length then some [] else none,
      matchAll := false }

/-- `MatchResult` from `pkg/matcher/types.go`. -/
structure MatchResult where
  Matched : Bool
  Rule : String
  rtype : RuleType
deriving DecidableEq, Repr

/-- The Go zero value `MatchResult{}` (no match). -/
def MatchResult.noMatch : MatchResult :=
  { Matched := false, Rule := "", rtype := RuleType.RExact }

/-- Radix-tree `Get`: the most recent binding of key `k` in the insertion
list. -/
def wildGet (wild : List (String × String)) (k : String) : Option (String × String) :=
  wild.find? (fun e => e.1 == k)

/-- The reverse-prefix examined at loop index `i` of `Matcher.Match`:
`strings.Join(parts[:i+1], ".")`. -/
def preAt (parts : List String) (i : Nat) : String :=
  joinDot (parts.take (i + 1))

/-- One iteration of the wildcard loop of `Matcher.Match`: look the prefix up
in the radix tree; on a hit, accept it iff the query has strictly more labels
than the stored base (`qLabels > rLabels`); among accepted hits keep the one
with the greatest byte length (`len(prefix) > bestLen`). -/
def wildStep (wild : List (String × String)) (q : String) (parts : List String)
    (acc : Option String × Nat) (i : Nat) : Option String × Nat :=
  match wildGet wild (preAt parts i) with
  | some e =>
    if countDot e.2 + 1 < countDot q + 1 then
      if acc.2 < byteLen (preAt parts i) then (some e.2, byteLen (preAt parts i)) else acc
    else acc
  | none => acc

/-- The full wildcard loop `for i := 1; i <= len(parts); i++` of
`Matcher.Match`, with state `(best, bestLen)` starting at `(nil, 0)`. -/
def wildLoop (wild : List (String × String)) (q : String) (parts : List String) :
    Option String × Nat :=
  (List.range parts.length).foldl (wildStep wild q parts) (none, 0)

/-- `Matcher.Match` from `pkg/matcher`: normalize; empty → no match;
catch-all flag; exact set; then the reverse-label wildcard loop.  The source's
`if m.bf != nil && !m.bf.TestString(q) { }` probe guards an empty block and
contributes nothing to the result, so no branch appears here. -/
def Matcher.Match (m : Matcher) (query : String) : MatchResult :=
  let q := normalizeDomain toASCII query
  if q = "" then MatchResult.noMatch
  else if m.matchAll then { Matched := true, Rule := "*", rtype := RuleType.RWildcard }
  else if m.exact.contains q then { Matched := true, Rule := q, rtype := RuleType.RExact }
  else
    let parts := splitOnDot (reverseLabels q)
    match (wildLoop m.wild q parts).1 with
    | some best => { Matched := true, Rule := "*." ++ best, rtype := RuleType.RWildcard }
    | none => MatchResult.noMatch

end Matcher

/-! ## Characterization of `BuildMatcher` -/

/-- Whether a raw rule is the catch-all `*` after trimming. -/
def isStarRule (raw : String) : Bool :=
  decide (trimSpaceStr raw = "*")

/-- The exact-set entry a raw rule contributes, if any. -/
def exactOf (toASCII : String → String) (raw : String) : Option String :=
  let r := trimSpaceStr raw
  if r = "" then none
  else if r = "*" then none
  else if hasWildcardMark r then none
  else
    let canon := normalizeDomain toASCII r
    if canon = "" then none else some canon

/-- The radix `(key, value)` entry a raw rule contributes, if any. -/
def wildOf (toASCII : String → String) (raw : String) : Option (String × String) :=
  let r := trimSpaceStr raw
  if r = "" then none
  else if r = "*" then none
  else if hasWildcardMark r then
    let canon := normalizeDomain toASCII (dropWildcardMark r)
    if canon = "" then none else some (reverseLabels canon, canon)
  else none

/-- The invariant carried by the wildcard loop state: a `nil` best comes with
`bestLen = 0`, and a `some` best records an accepted radix hit whose prefix
byte length is `bestLen` and which satisfies the label-count guard. -/
def LoopInv (wild : List (String × String)) (q : String) (parts : List String)
    (acc : Option String × Nat) : Prop :=
  (acc.1 = none → acc = (none, 0)) ∧
  ∀ r, acc.1 = some r →
    countDot r + 1 < countDot q + 1 ∧
    ∃ i e, wildGet wild (preAt parts i) = some e ∧ e.2 = r ∧
      byteLen (preAt parts i) = acc.2

/-! ## Policy fetcher (`internal/client/fetcher.go`, `internal/client/types.go`)

`fetchPolicies` is modelled as a pure transition on the observable fetcher
state: the sequence of messages sent on the update channel, the shared
dry-run flag, the shared fetch interval (a Go `time.Duration`, i.e. a count
of nanoseconds), and the callback invocations.  The three failure sites of
the source (transport error, non-200 status, JSON decode error) each run the
same `switch f.operationalMode` block; the HTTP outcome is summarized as
either a transport error or a received response with a status code and an
optional decoded body (`none` = decode failure). -/

/-- The consumed fields of `DnsPolicySpec` (`internal/client/types.go`). -/
structure DnsPolicySpec where
  blockList : List String
  dryRun : Bool
  doh : Bool
  interval : Int
deriving DecidableEq, Repr

/-- `TLSData` (`internal/client/types.go`). -/
structure TLSData where
  certificate : String
  privateKey : String
  caCertificate : String
deriving DecidableEq, Repr

/-- `DnsPolicy` restricted to its consumed `Spec` field. -/
structure DnsPolicy where
  spec : DnsPolicySpec
deriving DecidableEq, Repr

/-- `ControllerResponse` (`internal/client/types.go`). -/
structure ControllerResponse where
  policy : DnsPolicy
  tlsData : Option TLSData
deriving DecidableEq, Repr

/-- The observable state acted on by one `fetchPolicies` call. -/
structure FetchState where
  sent : List (List String)
  dryRun : Bool
  fetchInterval : Int
  dohCalls : List Bool
  tlsCalls : Nat
deriving DecidableEq, Repr

/-- Outcome of the HTTP GET in `fetchPolicies`: a transport error, or a
response with its status code and optionally decoded JSON body
(`none` models a decode error). -/
inductive FetchOutcome where
  | transportError
  | httpResponse (status : Nat) (body : Option ControllerResponse)
deriving DecidableEq, Repr

/-- The `switch f.operationalMode` block that appears verbatim at each of the
three failure sites of `fetchPolicies`: `strict` pushes `["*"]` on the update
channel, `balance` sets the shared dry-run flag, any other mode does
nothing. -/
def applyFailureMode (mode : String) (st : FetchState) : FetchState :=
  if mode = "strict" then { st with sent := st.sent ++ [["*"]] }
  else if mode = "balance" then { st with dryRun := true }
  else st

/-- `Fetcher.fetchPolicies` as a state transition.  On success the source,
in order: invokes the DoH callback with `Policy.Spec.Doh`; invokes the TLS
callback when `Doh` is set and `TLSData` is present; sends
`Policy.Spec.BlockList` on the update channel; stores `Policy.Spec.DryRun`
through the dry-run pointer; stores `time.Duration(Policy.Spec.Interval)`
through the interval pointer (note: the bare `int`-to-`Duration` conversion,
a nanosecond count — there is no `* time.Second` in the source). -/
def fetchPolicies (mode : String) (st : FetchState) (oc : FetchOutcome) : FetchState :=
  match oc with
  | FetchOutcome.transportError => applyFailureMode mode st
  | FetchOutcome.httpResponse status body =>
    if status ≠ 200 then applyFailureMode mode st
    else
      match body with
      | none => applyFailureMode mode st
      | some resp =>
        let st := { st with dohCalls := st.dohCalls ++ [resp.policy.spec.doh] }
        let st := if resp.policy.spec.doh && resp.tlsData.isSome
          then { st with tlsCalls := st.tlsCalls + 1 } else st
        { st with sent := st.sent ++ [resp.policy.spec.blockList],
                  dryRun := resp.policy.spec.dryRun,
                  fetchInterval := resp.policy.spec.interval }

/-- A fetch outcome that takes one of the three failure paths. -/
def FetchOutcome.isFailure : FetchOutcome → Bool
  | FetchOutcome.transportError => true
  | FetchOutcome.httpResponse status body => status != 200 || body.isNone

/-! ## DNS handler decision logic (`src/unnamed/part_004`, second file)

The `internal/dns` handler compiled into the current binary (the one
`cmd/lktr/main.go` constructs) carries a `DryRun` field.  Its
`HandleUDP`/`HandleTCP` block-or-forward decision, taken after the query has
been read, framed and parsed, is embedded below.  `domain` is the name
returned by `ParseQuery` and `queryLen` the byte length of the raw query. -/

/-- What the handler does with a parsed query. -/
inductive QueryAction where
  | drop
  | nxdomain
  | forward
deriving DecidableEq, Repr

/-- The decision logic of `Handler.HandleUDP`: parse-error drop, then match;
on a match, NXDOMAIN only when `!h.DryRun`, otherwise log and fall through to
forwarding. -/
def handleUDPDecision (toASCII : String → String) (dryRun : Bool)
    (m : Option Matcher) (domain : String) (queryLen : Nat) : QueryAction :=
  if domain = "" ∧ 12 ≤ queryLen then QueryAction.drop
  else
    match m with
    | some mm =>
      if (Matcher.Match toASCII mm domain).Matched then
        if !dryRun then QueryAction.nxdomain else QueryAction.forward
      else QueryAction.forward
    | none => QueryAction.forward

/-- The decision logic of `Handler.HandleTCP`: parse-error drop, then match;
on a match, NXDOMAIN unconditionally.  The `dryRun` field is part of the
handler state but the source's `HandleTCP` never reads it. -/
def handleTCPDecision (toASCII : String → String) (dryRun : Bool)
    (m : Option Matcher) (domain : String) (queryLen : Nat) : QueryAction :=
  if domain = "" ∧ 12 ≤ queryLen then QueryAction.drop
  else
    match m with
    | some mm =>
      if (Matcher.Match toASCII mm domain).Matched then QueryAction.nxdomain
      else QueryAction.forward
    | none => QueryAction.forward

/-- The TCP query length computed from the 2-byte big-endian length header:
`int(lengthBuf[0])<<8 | int(lengthBuf[1])` (both `src/unnamed/part_004`
line 688 and `src/unnamed/part_006` line 188). -/
def tcpQueryLen (b0 b1 : Nat) : Nat :=
  (b0 <<< 8) ||| b1

/-- The guard `queryLen > 65535` of `HandleTCP`. -/
def tcpLenGuardTriggers (b0 b1 : Nat) : Bool :=
  decide (tcpQueryLen b0 b1 > 65535)

/-! ## Split / join infrastructure -/

theorem splitDotsL_ne_nil (l : List Char) : splitDotsL l ≠ [] := by
  induction l with
  | nil => simp [splitDotsL]
  | cons c rest ih =>
    simp only [splitDotsL]
    split
    · simp
    · cases h : splitDotsL rest with
      | nil => simp
      | cons p ps => simp

theorem joinDotsL_splitDotsL (l : List Char) : joinDotsL (splitDotsL l) = l := by
  induction l with
  | nil => rfl
  | cons c rest ih =>
    by_cases hc : c = '.'
    · subst hc
      simp only [splitDotsL, if_pos rfl]
      cases h : splitDotsL rest with
      | nil => exact absurd h (splitDotsL_ne_nil rest)
      | cons p ps =>
        rw [h] at ih
        show joinDotsL ([] :: p :: ps) = '.' :: rest
        simp only [joinDotsL, List.nil_append]
        rw [ih]
    · simp only [splitDotsL, if_neg hc]
      cases h : splitDotsL rest with
      | nil => exact absurd h (splitDotsL_ne_nil rest)
      | cons p ps =>
        rw [h] at ih
        cases ps with
        | nil =>
          simp only [joinDotsL] at ih ⊢
          rw [ih]
        | cons q ps' =>
          simp only [joinDotsL] at ih ⊢
          rw [List.cons_append, ih]

theorem not_dot_mem_splitDotsL (l : List Char) (p : List Char)
    (hp : p ∈ splitDotsL l) : '.' ∉ p := by
  induction l generalizing p with
  | nil =>
    simp only [splitDotsL, List.mem_singleton] at hp
    subst hp; simp
  | cons c rest ih =>
    by_cases hc : c = '.'
    · subst hc
      simp only [splitDotsL, if_pos rfl] at hp
      rcases List.mem_cons.mp hp with h | h
      · subst h; simp
      · exact ih p h
    · simp only [splitDotsL, if_neg hc] at hp
      cases h : splitDotsL rest with
      | nil => exact absurd h (splitDotsL_ne_nil rest)
      | cons q ps =>
        rw [h] at hp
        rcases List.mem_cons.mp hp with h1 | h1
        · subst h1
          intro hmem
          rcases List.mem_cons.mp hmem with h2 | h2
          · exact hc h2.symm
          · have hq : q ∈ splitDotsL rest := by rw [h]; exact List.mem_cons_self q ps
            exact ih q hq h2
        · have hp' : p ∈ splitDotsL rest := by rw [h]; exact List.mem_cons_of_mem q h1
          exact ih p hp'

theorem splitDotsL_no_dot (p : List Char) (hp : '.' ∉ p) : splitDotsL p = [p] := by
  induction p with
  | nil => rfl
  | cons c rest ih =>
    have hc : c ≠ '.' := fun h => hp (by rw [h]; exact List.mem_cons_self '.' rest)
    have hrest : '.' ∉ rest := fun h => hp (List.mem_cons_of_mem c h)
    simp only [splitDotsL, if_neg hc]
    rw [ih hrest]

theorem splitDotsL_append_dot (p t : List Char) (hp : '.' ∉ p) :
    splitDotsL (p ++ '.' :: t) = p :: splitDotsL t := by
  induction p with
  | nil => simp [splitDotsL]
  | cons c rest ih =>
    have hc : c ≠ '.' := fun h => hp (by rw [h]; exact List.mem_cons_self '.' rest)
    have hrest : '.' ∉ rest := fun h => hp (List.mem_cons_of_mem c h)
    rw [List.cons_append]
    rw [show splitDotsL (c :: (rest ++ '.' :: t)) =
      (if c = '.' then [] :: splitDotsL (rest ++ '.' :: t)
       else match splitDotsL (rest ++ '.' :: t) with
            | [] => [[c]]
            | p :: ps => (c :: p) :: ps) from rfl]
    rw [if_neg hc, ih hrest]

theorem splitDotsL_joinDotsL (ps : List (List Char)) (hne : ps ≠ [])
    (hdot : ∀ p ∈ ps, '.' ∉ p) : splitDotsL (joinDotsL ps) = ps := by
  induction ps with
  | nil => exact absurd rfl hne
  | cons p rest ih =>
    cases rest with
    | nil =>
      simpa [joinDotsL] using splitDotsL_no_dot p (hdot p (List.mem_cons_self p []))
    | cons q rest' =>
      simp only [joinDotsL]
      rw [splitDotsL_append_dot p _ (hdot p (List.mem_cons_self p _)),
        ih (by simp) (fun r hr => hdot r (List.mem_cons_of_mem p hr))]

theorem toList_mkStr (l : List Char) : (String.mk l).toList = l := rfl

theorem mkStr_toList (s : String) : String.mk s.toList = s := rfl

theorem joinDot_splitOnDot (s : String) : joinDot (splitOnDot s) = s := by
  simp only [joinDot, splitOnDot, List.map_map]
  have : (String.toList ∘ fun l => String.mk l) = id := rfl
  rw [this, List.map_id, joinDotsL_splitDotsL]
  exact mkStr_toList s

theorem splitOnDot_ne_nil (s : String) : splitOnDot s ≠ [] := by
  simp only [splitOnDot, ne_eq, List.map_eq_nil_iff]
  exact splitDotsL_ne_nil s.toList

theorem mem_splitOnDot_no_dot (s : String) (p : String) (hp : p ∈ splitOnDot s) :
    '.' ∉ p.toList := by
  simp only [splitOnDot, List.mem_map] at hp
  obtain ⟨l, hl, rfl⟩ := hp
  exact not_dot_mem_splitDotsL s.toList l hl

theorem splitOnDot_joinDot (ps : List String) (hne : ps ≠ [])
    (hdot : ∀ p ∈ ps, '.' ∉ p.toList) : splitOnDot (joinDot ps) = ps := by
  simp only [splitOnDot, joinDot, toList_mkStr]
  rw [splitDotsL_joinDotsL]
  · simp only [List.map_map]
    have : ((fun l => String.mk l) ∘ String.toList) = id := rfl
    rw [this, List.map_id]
  · simpa using hne
  · intro p hp
    simp only [List.mem_map] at hp
    obtain ⟨x, hx, rfl⟩ := hp
    exact hdot x hx

theorem reverseLabels_reverseLabels (s : String) :
    reverseLabels (reverseLabels s) = s := by
  unfold reverseLabels
  rw [splitOnDot_joinDot (splitOnDot s).reverse
      (by simpa using splitOnDot_ne_nil s)
      (fun p hp => mem_splitOnDot_no_dot s p (List.mem_reverse.mp hp)),
    List.reverse_reverse, joinDot_splitOnDot]

theorem reverseLabels_injective : Function.Injective reverseLabels := by
  intro a b h
  have := congrArg reverseLabels h
  rwa [reverseLabels_reverseLabels, reverseLabels_reverseLabels] at this

section BuildChar

variable (toASCII : String → String)

theorem buildStep_matchAll (m : Matcher) (raw : String) :
    (buildStep toASCII m raw).matchAll = (m.matchAll || isStarRule raw) := by
  simp only [buildStep, isStarRule]
  split_ifs <;> simp_all

theorem buildStep_exact (m : Matcher) (raw : String) :
    (buildStep toASCII m raw).exact = (exactOf toASCII raw).toList ++ m.exact := by
  simp only [buildStep, exactOf]
  split_ifs <;> simp_all

theorem buildStep_wild (m : Matcher) (raw : String) :
    (buildStep toASCII m raw).wild = (wildOf toASCII raw).toList ++ m.wild := by
  simp only [buildStep, wildOf]
  split_ifs <;> simp_all

theorem buildStep_bf_isSome (m : Matcher) (raw : String) :
    (buildStep toASCII m raw).bf.isSome = m.bf.isSome := by
  simp only [buildStep]
  split_ifs <;> simp_all

theorem foldl_buildStep_matchAll (rules : List String) (m : Matcher) :
    (rules.foldl (buildStep toASCII) m).matchAll = (m.matchAll || rules.any isStarRule) := by
  induction rules generalizing m with
  | nil => simp
  | cons r rest ih =>
    simp only [List.foldl_cons, List.any_cons]
    rw [ih, buildStep_matchAll]
    cases m.matchAll <;> cases isStarRule r <;> simp

theorem foldl_buildStep_exact_mem (rules : List String) (m : Matcher) (x : String) :
    x ∈ (rules.foldl (buildStep toASCII) m).exact ↔
      (∃ r ∈ rules, exactOf toASCII r = some x) ∨ x ∈ m.exact := by
  induction rules generalizing m with
  | nil => simp
  | cons r rest ih =>
    simp only [List.foldl_cons, ih, buildStep_exact, List.mem_append,
      Option.mem_toList, Option.mem_def, List.exists_mem_cons_iff]
    aesop

theorem foldl_buildStep_wild_mem (rules : List String) (m : Matcher) (e : String × String) :
    e ∈ (rules.foldl (buildStep toASCII) m).wild ↔
      (∃ r ∈ rules, wildOf toASCII r = some e) ∨ e ∈ m.wild := by
  induction rules generalizing m with
  | nil => simp
  | cons r rest ih =>
    simp only [List.foldl_cons, ih, buildStep_wild, List.mem_append,
      Option.mem_toList, Option.mem_def, List.exists_mem_cons_iff]
    aesop

theorem foldl_buildStep_bf (rules : List String) (m : Matcher) :
    (rules.foldl (buildStep toASCII) m).bf.isSome = m.bf.isSome := by
  induction rules generalizing m with
  | nil => rfl
  | cons r rest ih => rw [List.foldl_cons, ih, buildStep_bf_isSome]

theorem BuildMatcher_matchAll (rules : List String) :
    (BuildMatcher toASCII rules).matchAll = rules.any isStarRule := by
  unfold BuildMatcher
  rw [foldl_buildStep_matchAll]
  rfl

theorem BuildMatcher_exact_mem (rules : List String) (x : String) :
    x ∈ (BuildMatcher toASCII rules).exact ↔ ∃ r ∈ rules, exactOf toASCII r = some x := by
  unfold BuildMatcher
  rw [foldl_buildStep_exact_mem]
  simp

theorem BuildMatcher_wild_mem (rules : List String) (e : String × String) :
    e ∈ (BuildMatcher toASCII rules).wild ↔ ∃ r ∈ rules, wildOf toASCII r = some e := by
  unfold BuildMatcher
  rw [foldl_buildStep_wild_mem]
  simp

theorem BuildMatcher_bf_isSome (rules : List String) :
    (BuildMatcher toASCII rules).bf.isSome = decide (10000 < rules.length) := by
  unfold BuildMatcher
  rw [foldl_buildStep_bf]
  split_ifs <;> simp_all

theorem wildOf_key (raw : String) (e : String × String)
    (h : wildOf toASCII raw = some e) : e.1 = reverseLabels e.2 := by
  simp only [wildOf] at h
  split_ifs at h <;> simp_all
  rw [← h]

theorem BuildMatcher_wild_key (rules : List String) (e : String × String)
    (he : e ∈ (BuildMatcher toASCII rules).wild) : e.1 = reverseLabels e.2 := by
  rw [BuildMatcher_wild_mem] at he
  obtain ⟨r, _, hr⟩ := he
  exact wildOf_key toASCII r e hr

end BuildChar

/-! ## Properties of the wildcard loop -/

theorem wildStep_cases (wild : List (String × String)) (q : String)
    (parts : List String) (acc : Option String × Nat) (i : Nat) :
    wildStep wild q parts acc i = acc ∨
      ∃ e, wildGet wild (preAt parts i) = some e ∧
        countDot e.2 + 1 < countDot q + 1 ∧ acc.2 < byteLen (preAt parts i) ∧
        wildStep wild q parts acc i = (some e.2, byteLen (preAt parts i)) := by
  unfold wildStep
  cases h : wildGet wild (preAt parts i) with
  | none => left; rfl
  | some e =>
    by_cases h1 : countDot e.2 + 1 < countDot q + 1
    · by_cases h2 : acc.2 < byteLen (preAt parts i)
      · right
        refine ⟨e, rfl, h1, h2, ?_⟩
        simp [h1, h2]
      · left
        simp [h1, h2]
    · left
      simp [h1]

theorem wildStep_snd_le (wild : List (String × String)) (q : String)
    (parts : List String) (acc : Option String × Nat) (i : Nat) :
    acc.2 ≤ (wildStep wild q parts acc i).2 := by
  rcases wildStep_cases wild q parts acc i with h | ⟨e, _, _, hlt, heq⟩
  · rw [h]
  · rw [heq]; exact Nat.le_of_lt hlt

theorem foldl_wildStep_snd_le (wild : List (String × String)) (q : String)
    (parts : List String) (l : List Nat) (acc : Option String × Nat) :
    acc.2 ≤ (l.foldl (wildStep wild q parts) acc).2 := by
  induction l generalizing acc with
  | nil => exact Nat.le_refl _
  | cons j rest ih =>
    exact Nat.le_trans (wildStep_snd_le wild q parts acc j) (ih _)

theorem wildStep_isSome (wild : List (String × String)) (q : String)
    (parts : List String) (acc : Option String × Nat) (i : Nat)
    (h : acc.1.isSome) : (wildStep wild q parts acc i).1.isSome := by
  rcases wildStep_cases wild q parts acc i with heq | ⟨e, _, _, _, heq⟩ <;> rw [heq]
  · exact h
  · rfl

theorem foldl_wildStep_isSome (wild : List (String × String)) (q : String)
    (parts : List String) (l : List Nat) (acc : Option String × Nat)
    (h : acc.1.isSome) : ((l.foldl (wildStep wild q parts) acc).1).isSome := by
  induction l generalizing acc with
  | nil => exact h
  | cons j rest ih => exact ih _ (wildStep_isSome wild q parts acc j h)

theorem wildStep_hit_le (wild : List (String × String)) (q : String)
    (parts : List String) (acc : Option String × Nat) (i : Nat)
    (e : String × String) (he : wildGet wild (preAt parts i) = some e)
    (hg : countDot e.2 + 1 < countDot q + 1) :
    byteLen (preAt parts i) ≤ (wildStep wild q parts acc i).2 := by
  unfold wildStep
  simp only [he, if_pos hg]
  split_ifs with h2
  · exact Nat.le_refl _
  · exact Nat.le_of_not_lt h2

theorem foldl_wildStep_hit_le (wild : List (String × String)) (q : String)
    (parts : List String) (l : List Nat) (acc : Option String × Nat)
    (i : Nat) (hi : i ∈ l) (e : String × String)
    (he : wildGet wild (preAt parts i) = some e)
    (hg : countDot e.2 + 1 < countDot q + 1) :
    byteLen (preAt parts i) ≤ (l.foldl (wildStep wild q parts) acc).2 := by
  induction l generalizing acc with
  | nil => cases hi
  | cons j rest ih =>
    rcases List.mem_cons.mp hi with rfl | hmem
    · exact Nat.le_trans (wildStep_hit_le wild q parts acc i e he hg)
        (foldl_wildStep_snd_le wild q parts rest _)
    · exact ih _ hmem

theorem wildStep_loopInv (wild : List (String × String)) (q : String)
    (parts : List String) (acc : Option String × Nat) (i : Nat)
    (h : LoopInv wild q parts acc) :
    LoopInv wild q parts (wildStep wild q parts acc i) := by
  rcases wildStep_cases wild q parts acc i with heq | ⟨e, he, hg, _, heq⟩ <;> rw [heq]
  · exact h
  · constructor
    · intro hnone; cases hnone
    · intro r hr
      obtain rfl : e.2 = r := Option.some.inj hr
      exact ⟨hg, i, e, he, rfl, rfl⟩

theorem foldl_wildStep_loopInv (wild : List (String × String)) (q : String)
    (parts : List String) (l : List Nat) (acc : Option String × Nat)
    (h : LoopInv wild q parts acc) :
    LoopInv wild q parts (l.foldl (wildStep wild q parts) acc) := by
  induction l generalizing acc with
  | nil => exact h
  | cons j rest ih => exact ih _ (wildStep_loopInv wild q parts acc j h)

theorem wildLoop_loopInv (wild : List (String × String)) (q : String)
    (parts : List String) : LoopInv wild q parts (wildLoop wild q parts) := by
  unfold wildLoop
  exact foldl_wildStep_loopInv wild q parts _ _ ⟨fun _ => rfl, fun r hr => by cases hr⟩

theorem wildLoop_some_of_hit (wild : List (String × String)) (q : String)
    (parts : List String) (i : Nat) (hi : i < parts.length)
    (e : String × String) (he : wildGet wild (preAt parts i) = some e)
    (hg : countDot e.2 + 1 < countDot q + 1)
    (hpos : 0 < byteLen (preAt parts i)) :
    ((wildLoop wild q parts).1).isSome := by
  unfold wildLoop
  have hmem : i ∈ List.range parts.length := List.mem_range.mpr hi
  obtain ⟨l₁, l₂, hsplit⟩ := List.append_of_mem hmem
  rw [hsplit, List.foldl_append]
  set acc := l₁.foldl (wildStep wild q parts) (none, 0) with hacc
  rw [List.foldl_cons]
  apply foldl_wildStep_isSome
  cases h1 : acc.1 with
  | some b => exact wildStep_isSome wild q parts acc i (by rw [h1]; rfl)
  | none =>
    have hz := (foldl_wildStep_loopInv wild q parts l₁ (none, 0)
      ⟨fun _ => rfl, fun r hr => by cases hr⟩).1 h1
    rw [← hacc] at hz
    rw [hz]
    simp [wildStep, he, hg, hpos]

/-! ## `Match` depends only on the membership view of the matcher -/

theorem wildGet_congr (w₁ w₂ : List (String × String))
    (hmem : ∀ e, e ∈ w₁ ↔ e ∈ w₂)
    (hkey : ∀ e ∈ w₁, e.1 = reverseLabels e.2) (k : String) :
    wildGet w₁ k = wildGet w₂ k := by
  cases h1 : wildGet w₁ k with
  | some e₁ =>
    have h1' : w₁.find? (fun e => e.1 == k) = some e₁ := h1
    have he₁ : e₁ ∈ w₁ := List.mem_of_find?_eq_some h1'
    have hb₁ := List.find?_some h1'
    have hk₁ : e₁.1 = k := beq_iff_eq.mp hb₁
    cases h2 : wildGet w₂ k with
    | some e₂ =>
      have h2' : w₂.find? (fun e => e.1 == k) = some e₂ := h2
      have he₂ : e₂ ∈ w₁ := (hmem e₂).mpr (List.mem_of_find?_eq_some h2')
      have hb₂ := List.find?_some h2'
      have hk₂ : e₂.1 = k := beq_iff_eq.mp hb₂
      have hv : e₁.2 = e₂.2 := by
        apply reverseLabels_injective
        rw [← hkey e₁ he₁, ← hkey e₂ he₂, hk₁, hk₂]
      have : e₁ = e₂ := Prod.ext (hk₁.trans hk₂.symm) hv
      rw [this]
    | none =>
      exfalso
      have h2' : w₂.find? (fun e => e.1 == k) = none := h2
      have := List.find?_eq_none.mp h2' e₁ ((hmem e₁).mp he₁)
      rw [hk₁] at this
      simp at this
  | none =>
    cases h2 : wildGet w₂ k with
    | some e₂ =>
      exfalso
      have h1' : w₁.find? (fun e => e.1 == k) = none := h1
      have h2' : w₂.find? (fun e => e.1 == k) = some e₂ := h2
      have he₂ : e₂ ∈ w₁ := (hmem e₂).mpr (List.mem_of_find?_eq_some h2')
      have hk₂ := List.find?_some h2'
      have := List.find?_eq_none.mp h1' e₂ he₂
      exact absurd hk₂ (by simpa using this)
    | none => rfl

theorem wildLoop_congr (w₁ w₂ : List (String × String))
    (hmem : ∀ e, e ∈ w₁ ↔ e ∈ w₂)
    (hkey : ∀ e ∈ w₁, e.1 = reverseLabels e.2) (q : String) (parts : List String) :
    wildLoop w₁ q parts = wildLoop w₂ q parts := by
  have hstep : wildStep w₁ q parts = wildStep w₂ q parts := by
    funext acc i
    unfold wildStep
    rw [wildGet_congr w₁ w₂ hmem hkey (preAt parts i)]
  unfold wildLoop
  rw [hstep]

theorem Match_congr (toASCII : String → String) (m₁ m₂ : Matcher)
    (hall : m₁.matchAll = m₂.matchAll)
    (hex : ∀ s, s ∈ m₁.exact ↔ s ∈ m₂.exact)
    (hw : ∀ e, e ∈ m₁.wild ↔ e ∈ m₂.wild)
    (hkey : ∀ e ∈ m₁.wild, e.1 = reverseLabels e.2)
    (q : String) : Matcher.Match toASCII m₁ q = Matcher.Match toASCII m₂ q := by
  have hcont : ∀ s, m₁.exact.contains s = m₂.exact.contains s := by
    intro s
    apply Bool.coe_iff_coe.mp
    rw [List.elem_iff, List.elem_iff]
    exact hex s
  unfold Matcher.Match
  dsimp only
  rw [hall, hcont, wildLoop_congr m₁.wild m₂.wild hw hkey]

/-! ## Helper lemmas for the bootstrap matcher -/

theorem foldl_wildStep_nil_wild (q : String) (parts : List String) (l : List Nat)
    (acc : Option String × Nat) : l.foldl (wildStep [] q parts) acc = acc := by
  induction l generalizing acc with
  | nil => rfl
  | cons j rest ih =>
    rw [List.foldl_cons, show wildStep [] q parts acc j = acc from rfl]
    exact ih _

theorem wildLoop_nil_wild (q : String) (parts : List String) :
    wildLoop [] q parts = (none, 0) := by
  unfold wildLoop
  exact foldl_wildStep_nil_wild q parts _ _

/-! ## Claim theorems -/

/-- C10: a matcher built from the empty rule list — the bootstrap matcher
installed by `main` before any policy update arrives — matches nothing:
for every query string `q`, `Match (BuildMatcher []) q` returns
`Matched = false`, so no query is blocked until the first block list is
received. -/
theorem bootstrap_empty_matcher_matches_nothing (toASCII : String → String) (q : String) :
    (Matcher.Match toASCII (BuildMatcher toASCII []) q).Matched = false := by
  have hm : BuildMatcher toASCII [] =
      { exact := [], wild := [], bf := none, matchAll := false } := rfl
  rw [hm]
  unfold Matcher.Match
  dsimp only
  by_cases h1 : normalizeDomain toASCII q = ""
  · rw [if_pos h1]
    rfl
  · rw [if_neg h1]
    rw [if_neg (show ¬(false = true) by simp)]
    rw [if_neg (show ¬(List.contains [] (normalizeDomain toASCII q) = true) by simp)]
    rw [wildLoop_nil_wild]
    rfl

/-- C7: the bloom filter never changes the match outcome: on every rule list
(`bf` is instantiated exactly when the list is longer than 10000) and every
query, `Match` returns the same result as on the same matcher with the bloom
filter removed; in particular a bloom hit without an exact-set or radix hit
still yields no match. -/
theorem bloom_filter_never_affects_match (toASCII : String → String)
    (rules : List String) (q : String) :
    Matcher.Match toASCII (BuildMatcher toASCII rules) q =
      Matcher.Match toASCII { BuildMatcher toASCII rules with bf := none } q ∧
    ((BuildMatcher toASCII rules).bf.isSome ↔ 10000 < rules.length) := by
  constructor
  · rfl
  · rw [BuildMatcher_bf_isSome]
    simp

theorem Match_BuildMatcher_mem_congr (toASCII : String → String) (R R' : List String)
    (h : ∀ s, s ∈ R ↔ s ∈ R') (q : String) :
    Matcher.Match toASCII (BuildMatcher toASCII R) q =
      Matcher.Match toASCII (BuildMatcher toASCII R') q := by
  apply Match_congr
  · rw [BuildMatcher_matchAll, BuildMatcher_matchAll]
    apply Bool.coe_iff_coe.mp
    rw [List.any_eq_true, List.any_eq_true]
    constructor
    · rintro ⟨r, hr, hs⟩
      exact ⟨r, (h r).mp hr, hs⟩
    · rintro ⟨r, hr, hs⟩
      exact ⟨r, (h r).mpr hr, hs⟩
  · intro s
    rw [BuildMatcher_exact_mem, BuildMatcher_exact_mem]
    constructor
    · rintro ⟨r, hr, he⟩
      exact ⟨r, (h r).mp hr, he⟩
    · rintro ⟨r, hr, he⟩
      exact ⟨r, (h r).mpr hr, he⟩
  · intro e
    rw [BuildMatcher_wild_mem, BuildMatcher_wild_mem]
    constructor
    · rintro ⟨r, hr, he⟩
      exact ⟨r, (h r).mp hr, he⟩
    · rintro ⟨r, hr, he⟩
      exact ⟨r, (h r).mpr hr, he⟩
  · exact BuildMatcher_wild_key toASCII R

/-- C8: `BuildMatcher` is extensionally invariant under permutations of the
rule list and under duplicating entries: the resulting matchers give the same
`Match` result on every query. -/
theorem buildMatcher_perm_dup_invariant (toASCII : String → String) :
    (∀ (R R' : List String), R.Perm R' → ∀ q : String,
       Matcher.Match toASCII (BuildMatcher toASCII R) q =
         Matcher.Match toASCII (BuildMatcher toASCII R') q) ∧
    (∀ (R : List String) (x : String), x ∈ R → ∀ q : String,
       Matcher.Match toASCII (BuildMatcher toASCII (x :: R)) q =
         Matcher.Match toASCII (BuildMatcher toASCII R) q) := by
  constructor
  · intro R R' hperm q
    exact Match_BuildMatcher_mem_congr toASCII R R' (fun s => hperm.mem_iff) q
  · intro R x hx q
    apply Match_BuildMatcher_mem_congr
    intro s
    simp only [List.mem_cons]
    constructor
    · rintro (rfl | hs)
      · exact hx
      · exact hs
    · intro hs
      exact Or.inr hs

theorem buildMatcher_perm_dup_invariant_witness :
    Matcher.Match id (BuildMatcher id ["a.com", "b.com"]) "a.com" =
      Matcher.Match id (BuildMatcher id ["b.com", "a.com"]) "a.com" ∧
    Matcher.Match id (BuildMatcher id ["a.com", "a.com"]) "a.com" =
      Matcher.Match id (BuildMatcher id ["a.com"]) "a.com" :=
  ⟨(buildMatcher_perm_dup_invariant id).1 _ _ (List.Perm.swap "b.com" "a.com" []) "a.com",
   (buildMatcher_perm_dup_invariant id).2 ["a.com"] "a.com" (by simp) "a.com"⟩

theorem catchAll_mem_matchAll (toASCII : String → String) (rules : List String)
    (h : "*" ∈ rules) : (BuildMatcher toASCII rules).matchAll = true := by
  rw [BuildMatcher_matchAll, List.any_eq_true]
  exact ⟨"*", h, by decide⟩

/-- C2 (amended): for every rule set built with the literal rule `"*"`
present, `Match` on any query string whose normalized form is non-empty
returns a match with rule `"*"` and type Wildcard, before the exact set or
the wildcard radix is consulted.  (A query such as `"."`, non-empty but
normalizing to the empty string, returns no match — see the
counterexample.) -/
theorem catchAll_dominates (toASCII : String → String) (rules : List String) (q : String)
    (hstar : "*" ∈ rules) (hq : normalizeDomain toASCII q ≠ "") :
    Matcher.Match toASCII (BuildMatcher toASCII rules) q =
      { Matched := true, Rule := "*", rtype := RuleType.RWildcard } := by
  unfold Matcher.Match
  dsimp only
  rw [if_neg hq, if_pos (catchAll_mem_matchAll toASCII rules hstar)]

/-- C2 counterexample: the query `"."` is a non-empty string, yet on the
rule set `["*"]` `Match` returns no match, because normalization erases the
trailing dot and the empty-name check precedes the catch-all check. -/
theorem catchAll_dot_query_not_matched :
    "." ≠ "" ∧ Matcher.Match id (BuildMatcher id ["*"]) "." = MatchResult.noMatch :=
  ⟨by decide, by decide⟩

theorem catchAll_dominates_witness :
    Matcher.Match id (BuildMatcher id ["*", "example.com"]) "example.com" =
      { Matched := true, Rule := "*", rtype := RuleType.RWildcard } :=
  catchAll_dominates id ["*", "example.com"] "example.com" (by decide) (by decide)

/-- C5: a reverse-prefix radix hit is a valid wildcard match exactly under
the strict label-count guard: (a) any best returned by the wildcard loop
satisfies `labels(q) > labels(base)`; (b) any radix hit satisfying the guard
(at a non-empty prefix, as all radix keys are) forces a match; and with the
single rule `*.example.com`, `Match "example.com"` returns no match while
`Match "a.example.com"` returns a Wildcard match on `*.example.com`. -/
theorem wildcard_apex_exclusion :
    (∀ (wild : List (String × String)) (q : String) (parts : List String) (r : String),
       (wildLoop wild q parts).1 = some r → countDot r + 1 < countDot q + 1) ∧
    (∀ (wild : List (String × String)) (q : String) (parts : List String)
       (i : Nat) (e : String × String), i < parts.length →
       wildGet wild (preAt parts i) = some e →
       countDot e.2 + 1 < countDot q + 1 → 0 < byteLen (preAt parts i) →
       ((wildLoop wild q parts).1).isSome) ∧
    Matcher.Match id (BuildMatcher id ["*.example.com"]) "example.com" =
      MatchResult.noMatch ∧
    Matcher.Match id (BuildMatcher id ["*.example.com"]) "a.example.com" =
      { Matched := true, Rule := "*.example.com", rtype := RuleType.RWildcard } := by
  refine ⟨?_, ?_, by decide, by decide⟩
  · intro wild q parts r hr
    exact ((wildLoop_loopInv wild q parts).2 r hr).1
  · intro wild q parts i e hi he hg hpos
    exact wildLoop_some_of_hit wild q parts i hi e he hg hpos

theorem wildcard_apex_exclusion_witness :
    countDot "example.com" + 1 < countDot "a.example.com" + 1 :=
  wildcard_apex_exclusion.1 [("com.example", "example.com")] "a.example.com"
    (splitOnDot (reverseLabels "a.example.com")) "example.com" (by decide)

/-- C6: when the wildcard loop returns a best rule, that rule comes from an
examined reverse-prefix hit whose byte length is the recorded best length,
and every valid hit (radix hit satisfying the label guard) at any examined
index has byte length at most that best length — the longest matching suffix
wins; in particular with rules `*.com` and `*.example.com`, a query for
`a.example.com` returns a Wildcard match on `*.example.com`. -/
theorem wildcard_longest_suffix_wins :
    (∀ (wild : List (String × String)) (q : String) (parts : List String)
       (r : String) (bl : Nat), wildLoop wild q parts = (some r, bl) →
       (∃ i e, wildGet wild (preAt parts i) = some e ∧ e.2 = r ∧
          byteLen (preAt parts i) = bl) ∧
       (∀ j, j < parts.length → ∀ e, wildGet wild (preAt parts j) = some e →
          countDot e.2 + 1 < countDot q + 1 → byteLen (preAt parts j) ≤ bl)) ∧
    Matcher.Match id (BuildMatcher id ["*.com", "*.example.com"]) "a.example.com" =
      { Matched := true, Rule := "*.example.com", rtype := RuleType.RWildcard } := by
  refine ⟨?_, by decide⟩
  intro wild q parts r bl heq
  have hfst : (wildLoop wild q parts).1 = some r := by rw [heq]
  have hsnd : (wildLoop wild q parts).2 = bl := by rw [heq]
  constructor
  · obtain ⟨-, i, e, he, hv, hlen⟩ := (wildLoop_loopInv wild q parts).2 r hfst
    refine ⟨i, e, he, hv, ?_⟩
    rw [hlen, hsnd]
  · intro j hj e he hg
    have hle := foldl_wildStep_hit_le wild q parts (List.range parts.length) (none, 0) j
      (List.mem_range.mpr hj) e he hg
    rw [show (List.range parts.length).foldl (wildStep wild q parts) (none, 0) =
      wildLoop wild q parts from rfl, hsnd] at hle
    exact hle

theorem wildcard_longest_suffix_wins_witness :
    (∃ i e, wildGet [("com.example", "example.com"), ("com", "com")]
        (preAt (splitOnDot (reverseLabels "a.example.com")) i) = some e ∧
        e.2 = "example.com" ∧
        byteLen (preAt (splitOnDot (reverseLabels "a.example.com")) i) = 11) ∧
    (∀ j, j < (splitOnDot (reverseLabels "a.example.com")).length →
       ∀ e, wildGet [("com.example", "example.com"), ("com", "com")]
          (preAt (splitOnDot (reverseLabels "a.example.com")) j) = some e →
          countDot e.2 + 1 < countDot "a.example.com" + 1 →
          byteLen (preAt (splitOnDot (reverseLabels "a.example.com")) j) ≤ 11) :=
  wildcard_longest_suffix_wins.1 [("com.example", "example.com"), ("com", "com")]
    "a.example.com" (splitOnDot (reverseLabels "a.example.com")) "example.com" 11
    (by decide)

/-- C1 (code bug): on the UDP path the handler honours the dry-run flag —
a matched query with `DryRun = true` is forwarded, never answered with
NXDOMAIN — but on the TCP path the source never reads `h.DryRun`: a TCP query
for `example.com`, matched by the matcher built from `["example.com"]`, is
answered with NXDOMAIN even though the dry-run flag is true. -/
theorem dryRun_udp_respected_tcp_ignored :
    (∀ (toASCII : String → String) (mm : Matcher) (domain : String) (queryLen : Nat),
       (Matcher.Match toASCII mm domain).Matched = true →
       ¬(domain = "" ∧ 12 ≤ queryLen) →
       handleUDPDecision toASCII true (some mm) domain queryLen = QueryAction.forward) ∧
    handleTCPDecision id true (some (BuildMatcher id ["example.com"]))
        "example.com" 29 = QueryAction.nxdomain := by
  refine ⟨?_, by decide⟩
  intro toASCII mm domain queryLen hm hnd
  unfold handleUDPDecision
  rw [if_neg hnd]
  dsimp only
  rw [if_pos hm]
  rfl

theorem dryRun_udp_respected_tcp_ignored_witness :
    handleUDPDecision id true (some (BuildMatcher id ["example.com"])) "example.com" 29 =
      QueryAction.forward :=
  dryRun_udp_respected_tcp_ignored.1 id (BuildMatcher id ["example.com"]) "example.com" 29
    (by decide) (by decide)

/-- C3: every failed policy fetch (transport error, non-200 status, or JSON
decode error) is handled solely by the operational mode: `strict` sends
exactly the single message `["*"]` on the update channel and changes nothing
else; `balance` only sets the shared dry-run flag to true; any other mode
leaves the whole state unchanged.  In particular none of the success-path
assignments (block list send, dry-run from policy, interval) occur. -/
theorem fetch_failure_mode_effects (mode : String) (st : FetchState) (oc : FetchOutcome)
    (hf : oc.isFailure = true) :
    (mode = "strict" → fetchPolicies mode st oc = { st with sent := st.sent ++ [["*"]] }) ∧
    (mode = "balance" → fetchPolicies mode st oc = { st with dryRun := true }) ∧
    (mode ≠ "strict" → mode ≠ "balance" → fetchPolicies mode st oc = st) := by
  have hfail : fetchPolicies mode st oc = applyFailureMode mode st := by
    cases oc with
    | transportError => rfl
    | httpResponse status body =>
      simp only [FetchOutcome.isFailure, Bool.or_eq_true, bne_iff_ne, ne_eq,
        Option.isNone_iff_eq_none] at hf
      unfold fetchPolicies
      dsimp only
      by_cases hs : status = 200
      · subst hs
        rcases hf with h | h
        · exact absurd rfl h
        · subst h
          simp
      · rw [if_pos hs]
  refine ⟨?_, ?_, ?_⟩
  · intro h
    rw [hfail]
    unfold applyFailureMode
    rw [if_pos h]
  · intro h
    rw [hfail]
    unfold applyFailureMode
    rw [if_neg (show ¬mode = "strict" by rw [h]; decide), if_pos h]
  · intro h1 h2
    rw [hfail]
    unfold applyFailureMode
    rw [if_neg h1, if_neg h2]

theorem fetch_failure_mode_effects_witness :
    fetchPolicies "strict"
        { sent := [], dryRun := false, fetchInterval := 0, dohCalls := [], tlsCalls := 0 }
        FetchOutcome.transportError =
      { sent := [["*"]], dryRun := false, fetchInterval := 0,
        dohCalls := [], tlsCalls := 0 } :=
  (fetch_failure_mode_effects "strict"
    { sent := [], dryRun := false, fetchInterval := 0, dohCalls := [], tlsCalls := 0 }
    FetchOutcome.transportError rfl).1 rfl

/-- C4 (code bug): on a successful fetch the interval stored through the
mutable pointer is `time.Duration(Policy.Spec.Interval)` — `Interval`
nanoseconds, not `Interval` seconds: for `Interval = 30` the stored duration
is 30 (nanoseconds), not `30 * 10^9` as the claim (and the spec, which flags
the missing `* time.Second` in §9) requires. -/
theorem fetch_interval_stored_as_nanoseconds :
    (∀ (mode : String) (st : FetchState) (resp : ControllerResponse),
       (fetchPolicies mode st
           (FetchOutcome.httpResponse 200 (some resp))).fetchInterval =
         resp.policy.spec.interval) ∧
    (fetchPolicies "strict"
        { sent := [], dryRun := false, fetchInterval := 0, dohCalls := [], tlsCalls := 0 }
        (FetchOutcome.httpResponse 200 (some
          { policy := { spec :=
              { blockList := [], dryRun := false, doh := false, interval := 30 } },
            tlsData := none }))).fetchInterval = 30 ∧
    (fetchPolicies "strict"
        { sent := [], dryRun := false, fetchInterval := 0, dohCalls := [], tlsCalls := 0 }
        (FetchOutcome.httpResponse 200 (some
          { policy := { spec :=
              { blockList := [], dryRun := false, doh := false, interval := 30 } },
            tlsData := none }))).fetchInterval ≠ 30 * 1000000000 := by
  refine ⟨?_, by decide, by decide⟩
  intro mode st resp
  unfold fetchPolicies
  simp

/-- C9: the TCP query length `int(b0)<<8 | int(b1)` computed from the two
length-header bytes always lies in `[0, 65535]`, so the `queryLen > 65535`
error branch of `HandleTCP` can never be taken. -/
theorem tcp_length_guard_unreachable (b0 b1 : Nat) (h0 : b0 < 256) (h1 : b1 < 256) :
    tcpQueryLen b0 b1 ≤ 65535 ∧ tcpLenGuardTriggers b0 b1 = false := by
  have hle : tcpQueryLen b0 b1 ≤ 65535 := by
    have h2 : b0 <<< 8 < 2 ^ 16 := by
      rw [Nat.shiftLeft_eq]
      calc b0 * 2 ^ 8 ≤ 255 * 2 ^ 8 := Nat.mul_le_mul_right _ (by omega)
        _ < 2 ^ 16 := by norm_num
    have h3 : b1 < 2 ^ 16 := lt_of_lt_of_le h1 (by norm_num)
    have hlt : tcpQueryLen b0 b1 < 2 ^ 16 := Nat.or_lt_two_pow h2 h3
    have : (2 : Nat) ^ 16 = 65536 := by norm_num
    omega
  refine ⟨hle, ?_⟩
  unfold tcpLenGuardTriggers
  simp only [decide_eq_false_iff_not, gt_iff_lt, Nat.not_lt]
  exact hle

theorem tcp_length_guard_unreachable_witness :
    tcpQueryLen 255 255 ≤ 65535 ∧ tcpLenGuardTriggers 255 255 = false :=
  tcp_length_guard_unreachable 255 255 (by decide) (by decide)

